import Mathlib

/-!
# Verification of the Wordle guess evaluator and score calculator

Shallow embedding of the two core functions of the `slack-wordle-api`
repository (`src/api/index.ts`): `checkWord`, the two-pass duplicate-aware
guess evaluator, and `calculateScore`, the tiered score calculator, together
with the small helpers (`cleanWord`, the `findIndex` idiom) they rely on.

Conventions of the embedding:
* a JS string is a Lean `String`; `split("")` becomes `String.data`;
* JS array indexing `a[i]` becomes `List.getD i d` (reads past the end of a
  JS array yield `undefined`; no theorem below depends on the default);
* the JS `for` loops over `i = 0..4` become `List.foldl` over `List.range 5`;
* classification codes are the source's: `0` = exact, `1` = present,
  `2` = absent;
* JS numbers holding scores are `Int` (the overflow tier formula subtracts).
-/

/-- Pass 1 of `checkWord` (src/api/index.ts lines 146-153): for each
position `i < 5`, emit `0` (exact) and consume secret position `i` when
`gL[i] === sL[i]`, else emit `2` (absent for now). The state is the pair
(result so far, consumed-marker array `sY`). -/
def pass1 (gL sL : List Char) (sY : List Bool) : List Nat × List Bool :=
  (List.range 5).foldl
    (fun st i =>
      if gL.getD i ' ' = sL.getD i ' ' then (st.1 ++ [0], st.2.set i true)
      else (st.1 ++ [2], st.2))
    ([], sY)

/-- The inner `j` loop of pass 2 (src/api/index.ts lines 156-162): the first
`j < 5` with `!sY[j] && gL[i] === sL[j]`, if any. -/
def findJ (g : Char) (sL : List Char) (sY : List Bool) : Option Nat :=
  (List.range 5).find? (fun j => !(sY.getD j false) && (g == sL.getD j ' '))

/-- One iteration of the outer pass-2 loop of `checkWord` at position `i`:
if `result[i] === 2`, look for an unconsumed matching secret position; on a
hit set `result[i] = 1` and consume it. -/
def pass2Step (gL sL : List Char) (st : List Nat × List Bool) (i : Nat) :
    List Nat × List Bool :=
  if st.1.getD i 0 = 2 then
    match findJ (gL.getD i ' ') sL st.2 with
    | some j => (st.1.set i 1, st.2.set j true)
    | none => st
  else st

/-- Pass 2 of `checkWord` (src/api/index.ts lines 154-164). -/
def pass2 (gL sL : List Char) (st : List Nat × List Bool) : List Nat × List Bool :=
  (List.range 5).foldl (pass2Step gL sL) st

/-- `checkWord(gL, sL, sY)` (src/api/index.ts lines 144-166): the returned
`result` array. The mutation of the caller's `sY` array is internal state
here; every call site passes a fresh `new Array(5).fill(false)`. -/
def checkWord (gL sL : List Char) (sY : List Bool) : List Nat :=
  (pass2 gL sL (pass1 gL sL sY)).1

/-- The spec's `evaluate(secret, guess)`: the call pattern shared by
`/game/check`, `/game/playGame` and `/slack-guess`
(e.g. src/api/index.ts lines 498-502): split both words into letters and run
`checkWord` with a fresh all-false consumed-marker array. -/
def evaluate (secret guess : String) : List Nat :=
  checkWord guess.data secret.data (List.replicate 5 false)

/-- JS `word.toLowerCase().trim()` modelled on the character list: lowercase
every character, then strip whitespace from both ends. -/
def normalizeWord (word : String) : List Char :=
  (((word.data.map Char.toLower).dropWhile Char.isWhitespace).reverse.dropWhile
      Char.isWhitespace).reverse

/-- `cleanWord(word)` (src/api/index.ts lines 137-142): lowercase and trim,
then reject words whose length is not 5 or which fail `/^[a-z]+$/`.
The thrown JS `Error` is an `Except.error` carrying the message. -/
def cleanWord (word : String) : Except String String :=
  let w := normalizeWord word
  if w.length ≠ 5 then Except.error "Guess parameter length is invalid: 400"
  else if ¬(w ≠ [] ∧ w.all fun c => 'a' ≤ c ∧ c ≤ 'z') then
    Except.error "Guess must contain only letters: 400"
  else Except.ok (String.mk w)

/-- JS `Array.prototype.findIndex`, with `-1` rendered as `none`:
the index of the first element satisfying `p`. -/
def findIndex {α : Type} (p : α → Bool) : List α → Option Nat
  | [] => none
  | x :: xs => if p x then some 0 else (findIndex p xs).map (· + 1)

/-- The predicate of `guesses.findIndex(g => g.every(x => x === 0))`
(src/api/index.ts line 200): a guess row all of whose entries are `0`. -/
def isWinRow (g : List Nat) : Bool :=
  g.all (fun x => x == 0)

/-- `hasAnyGreen` of `calculateScore` (src/api/index.ts lines 185-198):
some entry of some row is `0`. -/
def hasAnyGreen (guesses : List (List Nat)) : Bool :=
  guesses.any (fun g => g.any (fun v => v == 0))

/-- `totalGreen` of `calculateScore`: the number of `0` entries across the
whole history. -/
def totalGreen (guesses : List (List Nat)) : Nat :=
  (guesses.map (fun g => g.count 0)).sum

/-- `totalYellow` of `calculateScore`: the number of `1` entries across the
whole history. -/
def totalYellow (guesses : List (List Nat)) : Nat :=
  (guesses.map (fun g => g.count 1)).sum

/-- `calculateScore(guesses)` (src/api/index.ts lines 184-214): `0` when no
green anywhere; otherwise the solve tier of the first all-zero row when one
exists (`switch` on `winIndex + 1`, overflow formula past 6); otherwise
`Math.min(totalGreen * 10 + totalYellow * 4, 400)`. -/
def calculateScore (guesses : List (List Nat)) : Int :=
  if !(hasAnyGreen guesses) then 0
  else
    match findIndex isWinRow guesses with
    | some winIndex =>
      if winIndex + 1 = 1 then 1000
      else if winIndex + 1 = 2 then 900
      else if winIndex + 1 = 3 then 800
      else if winIndex + 1 = 4 then 700
      else if winIndex + 1 = 5 then 600
      else if winIndex + 1 = 6 then 500
      else 500 - ((winIndex : Int) + 1 - 6) * 50
    | none => min ((totalGreen guesses : Int) * 10 + (totalYellow guesses : Int) * 4) 400

/-! ## Reference definitions written from the spec's words -/

/-- From the spec (section 4.1, pass 2): "scan the *unconsumed* secret
positions left-to-right; if the guess letter matches an unconsumed secret
letter", the position of that first match. The scan order is the list of
positions handed in. -/
def specScan (g : Char) (sL : List Char) (consumed : List Bool) :
    List Nat → Option Nat
  | [] => none
  | j :: js =>
    if consumed.getD j false = false ∧ g = sL.getD j ' ' then some j
    else specScan g sL consumed js

/-- From the spec (section 4.1, pass 2): "for each position not marked
`exact`", in left-to-right position order, scan for an unconsumed matching
secret position; on a match "mark the guess position `present`, consume that
secret position"; otherwise leave the tentative `absent` mark. State is the
pair (marks, consumed flags). -/
def specPass2 (gL sL : List Char) : List Nat → List Nat × List Bool → List Nat × List Bool
  | [], st => st
  | i :: is, st =>
    if gL.getD i ' ' = sL.getD i ' ' then specPass2 gL sL is st
    else
      match specScan (gL.getD i ' ') sL st.2 (List.range 5) with
      | some j => specPass2 gL sL is (st.1.set i 1, st.2.set j true)
      | none => specPass2 gL sL is st

/-- The two-pass reference algorithm exactly as the spec words it
(section 4.1): pass 1 marks position `i` exact and consumes secret position
`i` when `guess[i] = secret[i]`, otherwise tentatively marks it absent;
pass 2 resolves the remaining positions against the unconsumed secret
positions. -/
def specEvaluate (secret guess : String) : List Nat :=
  let gL := guess.data
  let sL := secret.data
  let marks := (List.range 5).map fun i =>
    if gL.getD i ' ' = sL.getD i ' ' then 0 else 2
  let consumed := (List.range 5).map fun i =>
    decide (gL.getD i ' ' = sL.getD i ' ')
  (specPass2 gL sL (List.range 5) (marks, consumed)).1

/-- The solve-speed tier table exactly as the spec words it (section 4.2):
the score as a function of the 1-based index `n` of the first solving
attempt. -/
def tierScore (n : Nat) : Int :=
  if n = 1 then 1000
  else if n = 2 then 900
  else if n = 3 then 800
  else if n = 4 then 700
  else if n = 5 then 600
  else if n = 6 then 500
  else 500 - ((n : Int) - 6) * 50

/-- The number of guess positions holding letter `c` that a result array
marks exact or present (codes `0` or `1`). -/
def creditCnt (gL : List Char) (res : List Nat) (c : Char) : Nat :=
  ∑ i in Finset.range 5,
    if gL.getD i ' ' = c ∧ (res.getD i 0 = 0 ∨ res.getD i 0 = 1) then 1 else 0

/-- The number of consumed secret positions holding letter `c`. -/
def consumedCnt (sL : List Char) (sY : List Bool) (c : Char) : Nat :=
  ∑ j in Finset.range 5,
    if sL.getD j ' ' = c ∧ sY.getD j false = true then 1 else 0

example : evaluate "aback" "aaaaa" = [0, 2, 0, 2, 2] := by decide
example : evaluate "crane" "crane" = [0, 0, 0, 0, 0] := by decide
example : evaluate "crane" "slate" = [2, 2, 0, 2, 0] := by decide
example : specEvaluate "aback" "aaaaa" = [0, 2, 0, 2, 2] := by decide
example : calculateScore [[0, 2, 2, 2, 2], []] = 900 := by decide
example : calculateScore [[2,2,2,2,2], [0,0,0,0,0]] = 900 := by decide
example : calculateScore [[1,1,1,1,1]] = 0 := by decide
example : calculateScore [[0,2,2,2,2]] = 10 := by decide
example : calculateScore (List.replicate 16 ([2,2,2,2,2]) ++ [[0,0,0,0,0]]) = -50 := by decide

/-! ## Basic list lemmas -/

theorem getD_set_ne {α : Type} (a d : α) (l : List α) :
    ∀ (i j : Nat), i ≠ j → (l.set i a).getD j d = l.getD j d := by
  induction l with
  | nil => intro i j _; rfl
  | cons x xs ih =>
    intro i j h
    cases i with
    | zero =>
      cases j with
      | zero => exact absurd rfl h
      | succ j => rfl
    | succ i =>
      cases j with
      | zero => rfl
      | succ j => exact ih i j (fun e => h (by omega))

theorem getD_set_self {α : Type} (a d : α) (l : List α) :
    ∀ i : Nat, i < l.length → (l.set i a).getD i d = a := by
  induction l with
  | nil => intro i h; simp at h
  | cons x xs ih =>
    intro i h
    cases i with
    | zero => rfl
    | succ i => exact ih i (by simpa using h)

theorem getD_set_or {α : Type} (a d : α) (l : List α) :
    ∀ i j : Nat, (l.set i a).getD j d = l.getD j d ∨ (l.set i a).getD j d = a := by
  induction l with
  | nil => intro i j; left; rfl
  | cons x xs ih =>
    intro i j
    cases i with
    | zero =>
      cases j with
      | zero => right; rfl
      | succ j => left; rfl
    | succ i =>
      cases j with
      | zero => left; rfl
      | succ j => exact ih i j

/-! ## Pass 1 characterization -/

theorem pass1_eq (gL sL : List Char) :
    pass1 gL sL (List.replicate 5 false) =
      ([if gL.getD 0 ' ' = sL.getD 0 ' ' then 0 else 2,
        if gL.getD 1 ' ' = sL.getD 1 ' ' then 0 else 2,
        if gL.getD 2 ' ' = sL.getD 2 ' ' then 0 else 2,
        if gL.getD 3 ' ' = sL.getD 3 ' ' then 0 else 2,
        if gL.getD 4 ' ' = sL.getD 4 ' ' then 0 else 2],
       [decide (gL.getD 0 ' ' = sL.getD 0 ' '),
        decide (gL.getD 1 ' ' = sL.getD 1 ' '),
        decide (gL.getD 2 ' ' = sL.getD 2 ' '),
        decide (gL.getD 3 ' ' = sL.getD 3 ' '),
        decide (gL.getD 4 ' ' = sL.getD 4 ' ')]) := by
  unfold pass1
  rw [show List.range 5 = [0, 1, 2, 3, 4] from rfl]
  simp only [List.foldl_cons, List.foldl_nil]
  split_ifs <;> simp_all [List.replicate, List.set]

/-! ## The scan of pass 2 agrees with the spec's scan -/

theorem findJ_eq_specScan (g : Char) (sL : List Char) (sY : List Bool) :
    findJ g sL sY = specScan g sL sY (List.range 5) := by
  have h : ∀ L : List Nat,
      L.find? (fun j => !(sY.getD j false) && (g == sL.getD j ' ')) =
        specScan g sL sY L := by
    intro L
    induction L with
    | nil => rfl
    | cons j js ih =>
      by_cases hcond : sY.getD j false = false ∧ g = sL.getD j ' '
      · rw [List.find?_cons_of_pos _ (by
            show (!sY.getD j false && (g == sL.getD j ' ')) = true
            rw [hcond.1, hcond.2]; simp), specScan, if_pos hcond]
      · rw [List.find?_cons_of_neg _ (by simp only [Bool.and_eq_true,
          Bool.not_eq_true', beq_iff_eq, not_and]; intro hy hg; exact hcond ⟨hy, hg⟩),
          specScan, if_neg hcond, ih]
  exact h (List.range 5)

/-! ## Pass 2 refines the spec's pass 2 -/

theorem foldl_pass2_eq_spec (gL sL : List Char) :
    ∀ (L : List Nat) (st : List Nat × List Bool), L.Nodup →
      (∀ i ∈ L, st.1.getD i 0 = if gL.getD i ' ' = sL.getD i ' ' then 0 else 2) →
      L.foldl (pass2Step gL sL) st = specPass2 gL sL L st := by
  intro L
  induction L with
  | nil => intro st _ _; rfl
  | cons i is ih =>
    intro st hnd hinv
    obtain ⟨hni, hnd'⟩ := List.nodup_cons.1 hnd
    have hi := hinv i (List.mem_cons_self i is)
    rw [List.foldl_cons, specPass2]
    by_cases hc : gL.getD i ' ' = sL.getD i ' '
    · have hstep : pass2Step gL sL st i = st := by
        unfold pass2Step
        rw [hi, if_pos hc]
        simp
      rw [hstep, if_pos hc]
      exact ih st hnd' (fun k hk => hinv k (List.mem_cons_of_mem i hk))
    · have h2 : st.1.getD i 0 = 2 := by rw [hi, if_neg hc]
      rw [if_neg hc]
      unfold pass2Step
      rw [if_pos h2, findJ_eq_specScan]
      cases hfind : specScan (gL.getD i ' ') sL st.2 (List.range 5) with
      | none =>
        simp only [hfind]
        exact ih st hnd' (fun k hk => hinv k (List.mem_cons_of_mem i hk))
      | some j =>
        simp only [hfind]
        apply ih _ hnd'
        intro k hk
        have hik : i ≠ k := fun e => hni (e ▸ hk)
        show (st.1.set i 1).getD k 0 = _
        rw [getD_set_ne 1 0 st.1 i k hik]
        exact hinv k (List.mem_cons_of_mem i hk)

theorem length_eq_five {α : Type} (l : List α) (h : l.length = 5) :
    ∃ a b c d e, l = [a, b, c, d, e] := by
  rcases l with _ | ⟨a, _ | ⟨b, _ | ⟨c, _ | ⟨d, _ | ⟨e, _ | ⟨f, t⟩⟩⟩⟩⟩⟩ <;>
    first
    | exact ⟨a, b, c, d, e, rfl⟩
    | (exfalso; simp at h; try omega)

/-- C1: for 5-character secrets and guesses, `checkWord` run with a fresh
all-false consumed-marker array computes exactly the classification of the
spec's two-pass reference algorithm: pass 1 marks exact matches and consumes
their secret positions, pass 2 resolves each remaining position against the
first unconsumed matching secret position left-to-right, else leaves it
absent. -/
theorem evaluate_refines_spec (secret guess : String)
    (_hs : secret.length = 5) (_hg : guess.length = 5) :
    evaluate secret guess = specEvaluate secret guess := by
  unfold evaluate checkWord pass2
  rw [pass1_eq]
  rw [foldl_pass2_eq_spec guess.data secret.data (List.range 5) _ (by decide)
    (by intro i hi; fin_cases hi <;> rfl)]
  rfl

/-- Witness for C1 at a concrete secret and guess. -/
theorem evaluate_refines_spec_witness :
    ("crane" : String).length = 5 ∧ ("slate" : String).length = 5 ∧
      evaluate "crane" "slate" = specEvaluate "crane" "slate" :=
  ⟨by decide, by decide, evaluate_refines_spec "crane" "slate" (by decide) (by decide)⟩

/-! ## Win detection -/

theorem evaluate_self (w : String) : evaluate w w = [0, 0, 0, 0, 0] := by
  unfold evaluate checkWord pass2
  rw [show List.range 5 = [0, 1, 2, 3, 4] from rfl, pass1_eq]
  simp [pass2Step]

theorem pass2_getD_or (gL sL : List Char) :
    ∀ (L : List Nat) (st : List Nat × List Bool) (i : Nat),
      ((L.foldl (pass2Step gL sL) st).1.getD i 0 = st.1.getD i 0) ∨
        ((L.foldl (pass2Step gL sL) st).1.getD i 0 = 1) := by
  intro L
  induction L with
  | nil => intro st i; left; rfl
  | cons a as ih =>
    intro st i
    rw [List.foldl_cons]
    rcases ih (pass2Step gL sL st a) i with h | h
    · rw [h]
      unfold pass2Step
      by_cases hc : st.1.getD a 0 = 2
      · rw [if_pos hc]
        cases hf : findJ (gL.getD a ' ') sL st.2 with
        | none => simp [hf]
        | some j => simp only [hf]; exact getD_set_or 1 0 st.1 a i
      · rw [if_neg hc]; left; rfl
    · right; exact h

theorem evaluate_all_exact_imp (secret guess : String)
    (hs : secret.length = 5) (hg : guess.length = 5)
    (h : evaluate secret guess = [0, 0, 0, 0, 0]) : guess = secret := by
  have hchar : ∀ i, i < 5 → guess.data.getD i ' ' = secret.data.getD i ' ' := by
    intro i hi
    have hfin : (evaluate secret guess).getD i 0 = 0 := by
      rw [h]; interval_cases i <;> rfl
    rw [show evaluate secret guess =
      (List.foldl (pass2Step guess.data secret.data)
        (pass1 guess.data secret.data (List.replicate 5 false))
        (List.range 5)).1 from rfl] at hfin
    rcases pass2_getD_or guess.data secret.data (List.range 5)
      (pass1 guess.data secret.data (List.replicate 5 false)) i with h1 | h1
    · have h2 := h1.symm.trans hfin
      rw [pass1_eq] at h2
      interval_cases i <;>
        simp only [List.getD_cons_zero, List.getD_cons_succ] at h2 <;>
        split_ifs at h2 with hcc <;> exact hcc
    · rw [hfin] at h1
      exact absurd h1 (by decide)
  obtain ⟨a, b, c, d, e, hgd⟩ := length_eq_five guess.data hg
  obtain ⟨x, y, z, u, v, hsd⟩ := length_eq_five secret.data hs
  have h0 := hchar 0 (by omega)
  have h1 := hchar 1 (by omega)
  have h2 := hchar 2 (by omega)
  have h3 := hchar 3 (by omega)
  have h4 := hchar 4 (by omega)
  rw [hgd, hsd] at h0 h1 h2 h3 h4
  apply String.ext
  rw [hgd, hsd]
  simp only [List.getD_cons_zero, List.getD_cons_succ] at h0 h1 h2 h3 h4
  simp [h0, h1, h2, h3, h4]

/-- C8: win detection. `evaluate(w, w)` marks all five positions exact (in
particular for "crane"), and conversely, for 5-character secret and guess,
the evaluation is all-exact exactly when the guess equals the secret, which
is the `/game/check` response field `correct` (`solution === word`). -/
theorem evaluate_win_detection (secret guess : String)
    (hs : secret.length = 5) (hg : guess.length = 5) :
    (evaluate secret guess = [0, 0, 0, 0, 0] ↔ guess = secret) ∧
      evaluate "crane" "crane" = [0, 0, 0, 0, 0] := by
  refine ⟨⟨fun h => evaluate_all_exact_imp secret guess hs hg h, fun h => ?_⟩,
    evaluate_self "crane"⟩
  rw [h]
  exact evaluate_self secret

/-- Witness for C8 at concrete words. -/
theorem evaluate_win_detection_witness :
    ("crane" : String).length = 5 ∧
      ((evaluate "crane" "crane" = [0, 0, 0, 0, 0] ↔ ("crane" : String) = "crane") ∧
        evaluate "crane" "crane" = [0, 0, 0, 0, 0]) :=
  ⟨by decide, evaluate_win_detection "crane" "crane" (by decide) (by decide)⟩

/-- C9: determinism and idempotence. Two invocations of `checkWord` on the
same letters, each with a fresh all-false consumed-marker array, return
identical classification arrays, and two invocations of `calculateScore` on
the same history return the same integer: both cores are referentially
transparent (the embedding is a pure function of its arguments). -/
theorem core_referential_transparency (gL sL : List Char) (sY1 sY2 : List Bool)
    (h1 : sY1 = List.replicate 5 false) (h2 : sY2 = List.replicate 5 false) :
    checkWord gL sL sY1 = checkWord gL sL sY2 ∧
      ∀ gs : List (List Nat), calculateScore gs = calculateScore gs := by
  subst h1
  subst h2
  exact ⟨rfl, fun _ => rfl⟩

/-- Witness for C9 at a concrete invocation. -/
theorem core_referential_transparency_witness :
    checkWord ("aaaaa" : String).data ("aback" : String).data
        (List.replicate 5 false) =
      checkWord ("aaaaa" : String).data ("aback" : String).data
        (List.replicate 5 false) ∧
      ∀ gs : List (List Nat), calculateScore gs = calculateScore gs :=
  core_referential_transparency ("aaaaa" : String).data ("aback" : String).data
    (List.replicate 5 false) (List.replicate 5 false) rfl rfl

/-! ## findIndex lemmas -/

theorem findIndex_eq_none {α : Type} (p : α → Bool) :
    ∀ l : List α, (∀ x ∈ l, p x = false) → findIndex p l = none := by
  intro l
  induction l with
  | nil => intro _; rfl
  | cons x xs ih =>
    intro h
    unfold findIndex
    rw [h x (List.mem_cons_self x xs)]
    simp [ih (fun y hy => h y (List.mem_cons_of_mem x hy))]

theorem findIndex_some_getD {α : Type} (p : α → Bool) (d : α) :
    ∀ (l : List α) (n : Nat), findIndex p l = some n →
      n < l.length ∧ p (l.getD n d) = true := by
  intro l
  induction l with
  | nil => intro n h; exact absurd h (by simp [findIndex])
  | cons x xs ih =>
    intro n h
    unfold findIndex at h
    by_cases hp : p x
    · rw [if_pos hp] at h
      injection h with h
      subst h
      exact ⟨by simp, hp⟩
    · rw [if_neg hp] at h
      cases hfx : findIndex p xs with
      | none => rw [hfx] at h; exact absurd h (by simp)
      | some m =>
        rw [hfx] at h
        simp only [Option.map_some', Option.some.injEq] at h
        subst h
        obtain ⟨hm, hpm⟩ := ih m hfx
        exact ⟨by simpa using Nat.succ_lt_succ hm, hpm⟩

theorem getD_mem {α : Type} (d : α) :
    ∀ (l : List α) (n : Nat), n < l.length → l.getD n d ∈ l := by
  intro l
  induction l with
  | nil => intro n h; simp at h
  | cons x xs ih =>
    intro n h
    cases n with
    | zero => exact List.mem_cons_self x xs
    | succ n => exact List.mem_cons_of_mem x (ih n (by simpa using h))

/-! ## Score calculator: solve tiers -/

theorem calculateScore_of_win (gs : List (List Nat)) (n : Nat)
    (hg : hasAnyGreen gs = true) (h : findIndex isWinRow gs = some n) :
    calculateScore gs = tierScore (n + 1) := by
  unfold calculateScore tierScore
  rw [hg, h]
  simp only [Bool.not_true, Bool.false_eq_true, if_false]
  split_ifs <;> rfl

theorem hasAnyGreen_of_win (gs : List (List Nat)) (n : Nat)
    (hlen : ∀ g ∈ gs, g.length = 5)
    (h : findIndex isWinRow gs = some n) : hasAnyGreen gs = true := by
  obtain ⟨hn, hw⟩ := findIndex_some_getD isWinRow [] gs n h
  have hmem : gs.getD n [] ∈ gs := getD_mem [] gs n hn
  obtain ⟨a, b, c, d, e, hrow⟩ := length_eq_five _ (hlen _ hmem)
  rw [hrow] at hw
  simp only [isWinRow, List.all_cons, List.all_nil, Bool.and_eq_true,
    beq_iff_eq] at hw
  simp only [hasAnyGreen, List.any_eq_true, beq_iff_eq]
  exact ⟨gs.getD n [], hmem, by rw [hrow]; exact ⟨a, by simp, hw.1⟩⟩

/-- C3: solve-speed tiers. For a history of length-5 rows whose first
all-exact row has 0-based index `n`, the score is exactly the spec's tier
table at 1-based index `n + 1` (1000, 900, ..., 500 for indices 1..6 and
`500 - (index - 6) * 50` past 6); the score is a function of that index
alone, so rows after the first solving row cannot affect it. -/
theorem calculateScore_solve_tiers (gs : List (List Nat)) (n : Nat)
    (hlen : ∀ g ∈ gs, g.length = 5)
    (h : findIndex isWinRow gs = some n) :
    calculateScore gs = tierScore (n + 1) :=
  calculateScore_of_win gs n (hasAnyGreen_of_win gs n hlen h) h

/-- Witness for C3: solved on the second guess scores `tierScore 2 = 900`. -/
theorem calculateScore_solve_tiers_witness :
    calculateScore [[2, 2, 2, 2, 2], [0, 0, 0, 0, 0]] = tierScore 2 :=
  calculateScore_solve_tiers [[2, 2, 2, 2, 2], [0, 0, 0, 0, 0]] 1
    (by decide) (by decide)

/-! ## Score calculator: partial credit, zero rule, bounds -/

/-- C4: a never-solved history with at least one exact mark somewhere scores
`min(400, 10 * totalGreen + 4 * totalYellow)` summed across the entire
history, and in particular never more than 400. -/
theorem calculateScore_credit_cap (gs : List (List Nat))
    (_hlen : ∀ g ∈ gs, g.length = 5)
    (hnowin : ∀ g ∈ gs, isWinRow g = false)
    (hsome : ∃ g ∈ gs, (0 : Nat) ∈ g) :
    calculateScore gs =
      min 400 (10 * (totalGreen gs : Int) + 4 * (totalYellow gs : Int)) ∧
      calculateScore gs ≤ 400 := by
  have hg : hasAnyGreen gs = true := by
    obtain ⟨g, hgm, h0⟩ := hsome
    simp only [hasAnyGreen, List.any_eq_true, beq_iff_eq]
    exact ⟨g, hgm, 0, h0, rfl⟩
  have hmain : calculateScore gs =
      min 400 (10 * (totalGreen gs : Int) + 4 * (totalYellow gs : Int)) := by
    unfold calculateScore
    rw [hg, findIndex_eq_none isWinRow gs hnowin]
    simp only [Bool.not_true, Bool.false_eq_true, if_false]
    rw [min_comm]
    ring_nf
  exact ⟨hmain, by rw [hmain]; exact min_le_left 400 _⟩

/-- Witness for C4 at a history with one green and one yellow. -/
theorem calculateScore_credit_cap_witness :
    calculateScore [[0, 1, 2, 2, 2]] =
      min 400 (10 * (totalGreen [[0, 1, 2, 2, 2]] : Int) +
        4 * (totalYellow [[0, 1, 2, 2, 2]] : Int)) ∧
      calculateScore [[0, 1, 2, 2, 2]] ≤ 400 :=
  calculateScore_credit_cap [[0, 1, 2, 2, 2]] (by decide) (by decide)
    ⟨[0, 1, 2, 2, 2], by decide, by decide⟩

/-- C5: a history in which no row contains any exact mark (code 0) scores
exactly 0, even when the rows contain many present marks. -/
theorem calculateScore_zero_rule (gs : List (List Nat))
    (_hlen : ∀ g ∈ gs, g.length = 5)
    (hnoexact : ∀ g ∈ gs, ∀ v ∈ g, v ≠ 0) :
    calculateScore gs = 0 := by
  have hg : hasAnyGreen gs = false := by
    rw [← Bool.not_eq_true]
    intro hc
    simp only [hasAnyGreen, List.any_eq_true, beq_iff_eq] at hc
    obtain ⟨g, hgm, v, hv, hv0⟩ := hc
    exact hnoexact g hgm v hv hv0
  unfold calculateScore
  rw [hg]
  rfl

/-- Witness for C5 at a history of six all-yellow rows. -/
theorem calculateScore_zero_rule_witness :
    calculateScore (List.replicate 6 [1, 1, 1, 1, 1]) = 0 :=
  calculateScore_zero_rule (List.replicate 6 [1, 1, 1, 1, 1])
    (by decide) (by decide)

/-- C6 counterexample: a well-formed history of length-5 rows over codes
{0,1,2} whose first all-exact row sits at 1-based index 17 scores `-50`,
a negative value, so the claimed unconditional non-negativity fails for
histories longer than the 6-guess cap. -/
theorem calculateScore_overflow_negative :
    calculateScore (List.replicate 16 [2, 2, 2, 2, 2] ++ [[0, 0, 0, 0, 0]]) = -50 ∧
      ¬(0 ≤ calculateScore (List.replicate 16 [2, 2, 2, 2, 2] ++ [[0, 0, 0, 0, 0]])) ∧
      (∀ g ∈ List.replicate 16 [2, 2, 2, 2, 2] ++ [[0, 0, 0, 0, 0]],
        g.length = 5 ∧ ∀ v ∈ g, v ≤ 2) :=
  ⟨by decide, by decide, by decide⟩

/-- C6 amended: the score is non-negative for every history whose first
all-exact row (if any) has 1-based index at most 16 — in particular for
every history within the normal 6-guess cap — with no constraint needed on
histories that never solve. Beyond index 16 the overflow tier formula
`500 - (index - 6) * 50` turns negative. -/
theorem calculateScore_nonneg_amended (gs : List (List Nat))
    (hf : ∀ n, findIndex isWinRow gs = some n → n + 1 ≤ 16) :
    0 ≤ calculateScore gs := by
  unfold calculateScore
  cases hg : hasAnyGreen gs with
  | false => simp
  | true =>
    simp only [Bool.not_true, Bool.false_eq_true, if_false]
    cases hfi : findIndex isWinRow gs with
    | none => dsimp only; omega
    | some n =>
      have hn := hf n hfi
      dsimp only
      split_ifs <;> omega

/-- Witness for C6 amended: a history solved on guess 1. -/
theorem calculateScore_nonneg_amended_witness :
    0 ≤ calculateScore [[0, 0, 0, 0, 0]] :=
  calculateScore_nonneg_amended [[0, 0, 0, 0, 0]] (by
    intro n h
    simp only [findIndex, isWinRow] at h
    simp at h
    omega)

/-- C7 counterexample: `calculateScore` does not reject a history whose
classification values lie outside {0, 1, 2}; it silently returns a score
(`0` for `[[3,3,3,3,3]]`, and `10` for `[[0,3,7,2,5]]`, counting the
out-of-range values as contributing nothing). -/
theorem calculateScore_accepts_malformed :
    calculateScore [[3, 3, 3, 3, 3]] = 0 ∧
      calculateScore [[0, 3, 7, 2, 5]] = 10 :=
  ⟨by decide, by decide⟩

/-- C7 amended: malformed *words* are rejected as a precondition —
`cleanWord` raises the length error whenever the lowercased, trimmed word
does not have length 5, and the alphabet error whenever it fails
`/^[a-z]+$/` — but a history entry whose classification values lie outside
{0, 1, 2} is not rejected: `calculateScore` accepts it and returns a score,
treating such values as neither exact nor present. -/
theorem malformed_rejection_amended :
    (∀ w : String, (normalizeWord w).length ≠ 5 →
        cleanWord w = Except.error "Guess parameter length is invalid: 400") ∧
      (∀ w : String, (normalizeWord w).length = 5 →
        ¬(normalizeWord w ≠ [] ∧
          (normalizeWord w).all fun c => 'a' ≤ c ∧ c ≤ 'z') →
        cleanWord w = Except.error "Guess must contain only letters: 400") ∧
      calculateScore [[3, 3, 3, 3, 3]] = 0 := by
  refine ⟨?_, ?_, by decide⟩
  · intro w h
    unfold cleanWord
    rw [if_pos h]
  · intro w h5 halpha
    unfold cleanWord
    rw [if_neg (by simp [h5]), if_pos halpha]

/-- Witness for C7 amended: a six-letter word and a word with a digit are
both rejected, and the malformed history is still scored. -/
theorem malformed_rejection_amended_witness :
    cleanWord "abcdef" = Except.error "Guess parameter length is invalid: 400" ∧
      cleanWord "abcd1" = Except.error "Guess must contain only letters: 400" :=
  ⟨malformed_rejection_amended.1 "abcdef" (by decide),
    malformed_rejection_amended.2.1 "abcd1" (by decide) (by decide)⟩

/-- C10: the solved test `g.every(x => x === 0)` holds vacuously for an
empty row, so a zero-length row is treated as a solving attempt: any
history with a green somewhere whose first all-zero row is that empty row
gets the solve-tier score of the row's index, and concretely
`calculateScore [[0,2,2,2,2],[]] = 900`, even though an empty row violates
the spec's each-entry-length-5 precondition and is accepted without error. -/
theorem empty_row_counts_as_win (gs : List (List Nat)) (n : Nat)
    (hg : hasAnyGreen gs = true)
    (h : findIndex isWinRow gs = some n)
    (_hrow : gs.getD n [] = []) :
    calculateScore gs = tierScore (n + 1) ∧
      calculateScore [[0, 2, 2, 2, 2], []] = 900 :=
  ⟨calculateScore_of_win gs n hg h, by decide⟩

/-- Witness for C10 at the concrete history `[[0,2,2,2,2],[]]`. -/
theorem empty_row_counts_as_win_witness :
    calculateScore [[0, 2, 2, 2, 2], []] = tierScore 2 ∧
      calculateScore [[0, 2, 2, 2, 2], []] = 900 :=
  empty_row_counts_as_win [[0, 2, 2, 2, 2], []] 1 (by decide) (by decide)
    (by decide)

/-! ## Letter multiplicity: counting lemmas -/

theorem creditCnt_set (gL : List Char) (res : List Nat) (c : Char) (i : Nat)
    (hi : i < 5) (hlen : res.length = 5) (h2 : res.getD i 0 = 2) :
    creditCnt gL (res.set i 1) c =
      creditCnt gL res c + (if gL.getD i ' ' = c then 1 else 0) := by
  unfold creditCnt
  have hmem : i ∈ Finset.range 5 := Finset.mem_range.2 hi
  rw [← Finset.sum_erase_add _ _ hmem, ← Finset.sum_erase_add _ _ hmem]
  have herase : ∑ k in (Finset.range 5).erase i,
      (if gL.getD k ' ' = c ∧
          ((res.set i 1).getD k 0 = 0 ∨ (res.set i 1).getD k 0 = 1)
        then (1 : Nat) else 0) =
      ∑ k in (Finset.range 5).erase i,
      (if gL.getD k ' ' = c ∧ (res.getD k 0 = 0 ∨ res.getD k 0 = 1)
        then (1 : Nat) else 0) := by
    apply Finset.sum_congr rfl
    intro k hk
    rw [getD_set_ne 1 0 res i k ((Finset.mem_erase.1 hk).1.symm)]
  rw [herase, getD_set_self 1 0 res i (by omega), h2]
  norm_num

theorem consumedCnt_set (sL : List Char) (sY : List Bool) (c : Char) (j : Nat)
    (hj : j < 5) (hlen : sY.length = 5) (hf : sY.getD j false = false) :
    consumedCnt sL (sY.set j true) c =
      consumedCnt sL sY c + (if sL.getD j ' ' = c then 1 else 0) := by
  unfold consumedCnt
  have hmem : j ∈ Finset.range 5 := Finset.mem_range.2 hj
  rw [← Finset.sum_erase_add _ _ hmem, ← Finset.sum_erase_add _ _ hmem]
  have herase : ∑ k in (Finset.range 5).erase j,
      (if sL.getD k ' ' = c ∧ (sY.set j true).getD k false = true
        then (1 : Nat) else 0) =
      ∑ k in (Finset.range 5).erase j,
      (if sL.getD k ' ' = c ∧ sY.getD k false = true then (1 : Nat) else 0) := by
    apply Finset.sum_congr rfl
    intro k hk
    rw [getD_set_ne true false sY j k ((Finset.mem_erase.1 hk).1.symm)]
  rw [herase, getD_set_self true false sY j (by omega), hf]
  norm_num

theorem findJ_some (g : Char) (sL : List Char) (sY : List Bool) (j : Nat)
    (h : findJ g sL sY = some j) :
    j < 5 ∧ sY.getD j false = false ∧ g = sL.getD j ' ' := by
  unfold findJ at h
  have hmem := List.mem_of_find?_eq_some h
  have hp := List.find?_some h
  simp only [List.mem_range] at hmem
  simp only [Bool.and_eq_true, Bool.not_eq_true', beq_iff_eq] at hp
  exact ⟨hmem, hp.1, hp.2⟩

theorem pass2Step_invariant (gL sL : List Char) (st : List Nat × List Bool)
    (i : Nat) (hi : i < 5)
    (hres : st.1.length = 5) (hsy : st.2.length = 5)
    (hinv : ∀ c, creditCnt gL st.1 c ≤ consumedCnt sL st.2 c) :
    (pass2Step gL sL st i).1.length = 5 ∧
      (pass2Step gL sL st i).2.length = 5 ∧
      ∀ c, creditCnt gL (pass2Step gL sL st i).1 c ≤
        consumedCnt sL (pass2Step gL sL st i).2 c := by
  unfold pass2Step
  by_cases h2 : st.1.getD i 0 = 2
  · rw [if_pos h2]
    cases hf : findJ (gL.getD i ' ') sL st.2 with
    | none => simp only [hf]; exact ⟨hres, hsy, hinv⟩
    | some j =>
      simp only [hf]
      obtain ⟨hj5, hjf, hjc⟩ := findJ_some _ _ _ _ hf
      refine ⟨by rw [List.length_set]; exact hres,
        by rw [List.length_set]; exact hsy, ?_⟩
      intro c
      rw [creditCnt_set gL st.1 c i hi hres h2,
        consumedCnt_set sL st.2 c j hj5 hsy hjf]
      have hsame : (if gL.getD i ' ' = c then (1 : Nat) else 0) =
          (if sL.getD j ' ' = c then (1 : Nat) else 0) := by
        rw [hjc]
      rw [hsame]
      exact Nat.add_le_add (hinv c) (Nat.le_refl _)
  · rw [if_neg h2]
    exact ⟨hres, hsy, hinv⟩

theorem pass2_fold_invariant (gL sL : List Char) :
    ∀ (L : List Nat) (st : List Nat × List Bool), (∀ i ∈ L, i < 5) →
      st.1.length = 5 → st.2.length = 5 →
      (∀ c, creditCnt gL st.1 c ≤ consumedCnt sL st.2 c) →
      ∀ c, creditCnt gL (L.foldl (pass2Step gL sL) st).1 c ≤
        consumedCnt sL (L.foldl (pass2Step gL sL) st).2 c := by
  intro L
  induction L with
  | nil => intro st _ _ _ hinv c; exact hinv c
  | cons a as ih =>
    intro st hL hres hsy hinv c
    rw [List.foldl_cons]
    obtain ⟨h1, h2, h3⟩ := pass2Step_invariant gL sL st a
      (hL a (List.mem_cons_self a as)) hres hsy hinv
    exact ih (pass2Step gL sL st a)
      (fun i hi => hL i (List.mem_cons_of_mem a hi)) h1 h2 h3 c

theorem base_summand (x y c : Char) :
    (if x = c ∧ ((if x = y then (0 : Nat) else 2) = 0 ∨
        (if x = y then (0 : Nat) else 2) = 1) then (1 : Nat) else 0) =
      (if y = c ∧ decide (x = y) = true then (1 : Nat) else 0) := by
  by_cases hd : x = y
  · subst hd; simp
  · simp [hd]

theorem pass1_credit_base (gL sL : List Char) (c : Char) :
    creditCnt gL (pass1 gL sL (List.replicate 5 false)).1 c =
      consumedCnt sL (pass1 gL sL (List.replicate 5 false)).2 c := by
  rw [pass1_eq]
  unfold creditCnt consumedCnt
  apply Finset.sum_congr rfl
  intro k hk
  rw [Finset.mem_range] at hk
  interval_cases k <;>
    simpa only [List.getD_cons_zero, List.getD_cons_succ] using
      base_summand (gL.getD _ ' ') (sL.getD _ ' ') c

theorem count_eq_sum (sL : List Char) (hlen : sL.length = 5) (c : Char) :
    (∑ j in Finset.range 5, if sL.getD j ' ' = c then (1 : Nat) else 0) =
      sL.count c := by
  obtain ⟨a, b, d, e, f, hrow⟩ := length_eq_five sL hlen
  subst hrow
  simp only [Finset.sum_range_succ, Finset.sum_range_zero,
    List.getD_cons_zero, List.getD_cons_succ, List.count_cons, List.count_nil,
    beq_iff_eq]
  split_ifs <;> omega

theorem consumedCnt_le_count (sL : List Char) (sY : List Bool) (c : Char)
    (hlen : sL.length = 5) : consumedCnt sL sY c ≤ sL.count c := by
  rw [← count_eq_sum sL hlen c]
  unfold consumedCnt
  apply Finset.sum_le_sum
  intro j _
  split_ifs with h1 h2 <;>
    first
    | omega
    | exact absurd h1.1 h2

/-- C2: letter-multiplicity correctness. For 5-character secrets and guesses
and any letter `c`, the number of guess positions holding `c` that the
evaluation marks exact or present is at most the number of occurrences of
`c` in the secret; concretely, `evaluate "aback" "aaaaa"` marks exactly two
positions exact (0 and 2) and the other three absent, none present. -/
theorem evaluate_multiplicity_bound (secret guess : String) (c : Char)
    (hs : secret.length = 5) (_hg : guess.length = 5) :
    creditCnt guess.data (evaluate secret guess) c ≤ secret.data.count c ∧
      evaluate "aback" "aaaaa" = [0, 2, 0, 2, 2] := by
  refine ⟨?_, by decide⟩
  have hres : (pass1 guess.data secret.data (List.replicate 5 false)).1.length = 5 := by
    rw [pass1_eq]; rfl
  have hsy : (pass1 guess.data secret.data (List.replicate 5 false)).2.length = 5 := by
    rw [pass1_eq]; rfl
  have hfold := pass2_fold_invariant guess.data secret.data (List.range 5)
    (pass1 guess.data secret.data (List.replicate 5 false))
    (fun i hi => List.mem_range.1 hi) hres hsy
    (fun c2 => Nat.le_of_eq (pass1_credit_base guess.data secret.data c2)) c
  exact Nat.le_trans hfold
    (consumedCnt_le_count secret.data _ c hs)

/-- Witness for C2: secret "aback", guess "aaaaa", letter 'a'. -/
theorem evaluate_multiplicity_bound_witness :
    creditCnt ("aaaaa" : String).data (evaluate "aback" "aaaaa") 'a' ≤
        ("aback" : String).data.count 'a' ∧
      evaluate "aback" "aaaaa" = [0, 2, 0, 2, 2] :=
  evaluate_multiplicity_bound "aback" "aaaaa" 'a' (by decide) (by decide)
